import Mathlib

/-!
Shallow embedding of the LCache repository (Go) for specification checking.

Components embedded here:
* `LRU`   — the bounded-bytes LRU store of `store/lru.go` (`lruCache`).
* `SF`    — the single-flight coordinator of `singleflight/singleflight.go`.
* `CH`    — the consistent-hash ring of the `consistenthash` package.
* `Grp`   — the group/namespace layer of `group.go` plus the RPC server's
            `Set` handler (loop suppression).

Go maps are embedded as association lists (`List (String × β)`); Go's
`container/list` recency list is a `List (String × α)` whose front is the
least recently used end, exactly as in the source.  `int64` byte counters
and instants are embedded as `Int` (no overflow is reachable for the
quantities involved).  `time.Time` / `time.Duration` are instants and
durations in nanoseconds (`Int`); Go's `time.Now().After(t)` is the strict
comparison `now > t`.
-/

namespace AL

/-- Association-list lookup: the first entry with the given key (a Go map
read; the maps embedded here bind every key at most once). -/
def lookupKey {κ β : Type} [DecidableEq κ] (k : κ) : List (κ × β) → Option β
  | [] => none
  | e :: rest => if e.1 = k then some e.2 else lookupKey k rest

/-- Go map read with the type's zero value as default. -/
def lookupD {κ β : Type} [DecidableEq κ] (l : List (κ × β)) (k : κ) (d : β) : β :=
  (lookupKey k l).getD d

/-- Association-list removal of the first entry with the given key
(Go `delete(m, k)`, or `list.Remove(elem)` for the node indexed by `k`). -/
def eraseKey {κ β : Type} [DecidableEq κ] (k : κ) : List (κ × β) → List (κ × β)
  | [] => []
  | e :: rest => if e.1 = k then rest else e :: eraseKey k rest

/-- Association-list write `m[k] = v`: replace in place, or append if absent. -/
def setKey {κ β : Type} [DecidableEq κ] (k : κ) (v : β) : List (κ × β) → List (κ × β)
  | [] => [(k, v)]
  | e :: rest => if e.1 = k then (k, v) :: rest else e :: setKey k v rest

/-- Keys of an association list, in order. -/
def keysOf {κ β : Type} (l : List (κ × β)) : List κ :=
  l.map Prod.fst

end AL

namespace LRU

export AL (lookupKey eraseKey setKey keysOf)

/-- Embeds the Go interface `Value interface { Len() int }`: a value type
together with its byte-length function. -/
class GoValue (α : Type) where
  len : α → Nat

instance : GoValue (List Nat) := ⟨List.length⟩

/-- Key set insertion for the `items` index (`c.items[key] = elem`). -/
def insertKey (k : String) (l : List String) : List String :=
  if l.contains k then l else k :: l

/-- Bytes charged for one entry: `len(key) + value.Len()`. -/
def entryBytes {α : Type} [GoValue α] (e : String × α) : Int :=
  (e.1.length : Int) + (GoValue.len e.2 : Int)

/-- Total bytes of a recency list. -/
def listBytes {α : Type} [GoValue α] (l : List (String × α)) : Int :=
  (l.map entryBytes).sum

/-- State of `lruCache` (store/lru.go): the recency list (front = least
recently used, back = most recently used), the `items` index, the `expires`
map, the byte bounds, and the close bookkeeping (`cleanupTicker` non-nil,
`closeCh` already closed). -/
structure LRUState (α : Type) where
  list : List (String × α)
  items : List String
  expires : List (String × Int)
  maxBytes : Int
  usedBytes : Int
  tickerSet : Bool
  closeChClosed : Bool

/-- The state built by `newLRUCache`: everything empty, the cleanup ticker
started, the close channel open. -/
def newLRUCache (α : Type) [GoValue α] (maxBytes : Int) : LRUState α :=
  { list := [], items := [], expires := [], maxBytes := maxBytes,
    usedBytes := 0, tickerSet := true, closeChClosed := false }

/-- Embeds `lruCache.removeElement`: drop the node of `k` from the list,
delete `k` from `items` and `expires`, and give back its bytes.  The Go
function receives the node found through the `items` index; when `k` has no
node (never the case at Go call sites) the state is unchanged. -/
def removeElement {α : Type} [GoValue α] (s : LRUState α) (k : String) : LRUState α :=
  match lookupKey k s.list with
  | none => s
  | some v =>
      { s with list := eraseKey k s.list,
               items := s.items.erase k,
               expires := eraseKey k s.expires,
               usedBytes := s.usedBytes - entryBytes (k, v) }

/-- Embeds `lruCache.Delete`. -/
def lruDelete {α : Type} [GoValue α] (s : LRUState α) (k : String) : LRUState α × Bool :=
  match lookupKey k s.list with
  | none => (s, false)
  | some _ => (removeElement s k, true)

/-- Keys of `expires` whose instant is strictly in the past
(`now.After(expTime)`). -/
def expiredKeys (now : Int) (expires : List (String × Int)) : List String :=
  keysOf (expires.filter fun e => decide (now > e.2))

/-- First phase of `lruCache.evict`: sweep the expiry map, removing every
entry whose expiry is in the past (the `items` presence check of the Go
loop is the `none` case of `removeElement`). -/
def sweepExpired {α : Type} [GoValue α] (now : Int) (s : LRUState α) : LRUState α :=
  (expiredKeys now s.expires).foldl removeElement s

/-- Loop of the second phase of `lruCache.evict` with an explicit iteration
budget: while `maxBytes > 0` and `usedBytes > maxBytes` and the list is
non-empty, remove the front (least recently used) node.  The loop body is
`removeElement` applied to the front node, inlined
(`evictCapacity_cons_removeElement` below proves the correspondence).  Each
iteration shortens the list by one, so a budget of `s.list.length` never
runs out and the loop runs to its exit condition (`evictCapacityGo_bound`
below). -/
def evictCapacityGo {α : Type} [GoValue α] : Nat → LRUState α → LRUState α
  | 0, s => s
  | Nat.succ n, s =>
      match s.list with
      | [] => s
      | e :: rest =>
          if 0 < s.maxBytes ∧ s.maxBytes < s.usedBytes then
            evictCapacityGo n { s with list := rest,
                                       items := s.items.erase e.1,
                                       expires := eraseKey e.1 s.expires,
                                       usedBytes := s.usedBytes - entryBytes e }
          else s

/-- Second phase of `lruCache.evict`: the capacity loop, run to completion
(the budget `s.list.length` is an upper bound on its iteration count). -/
def evictCapacity {α : Type} [GoValue α] (s : LRUState α) : LRUState α :=
  evictCapacityGo s.list.length s

/-- Embeds `lruCache.evict`: expiry sweep, then capacity eviction. -/
def evict {α : Type} [GoValue α] (now : Int) (s : LRUState α) : LRUState α :=
  evictCapacity (sweepExpired now s)

/-- Embeds `lruCache.SetWithExpiration` (with `Set k v = SetWithExpiration
k v 0`).  A nil value delegates to `Delete`; otherwise the expiry map is
written first, then the entry is updated in place and moved to the back, or
inserted at the back followed by `evict`. -/
def setWithExpiration {α : Type} [GoValue α] (s : LRUState α) (k : String)
    (value : Option α) (expiration : Int) (now : Int) : LRUState α :=
  match value with
  | none => (lruDelete s k).1
  | some v =>
      let expires2 :=
        if 0 < expiration then setKey k (now + expiration) s.expires
        else eraseKey k s.expires
      let s1 : LRUState α := { s with expires := expires2 }
      match lookupKey k s1.list with
      | some oldV =>
          { s1 with usedBytes := s1.usedBytes + ((GoValue.len v : Int) - (GoValue.len oldV : Int)),
                    list := eraseKey k s1.list ++ [(k, v)] }
      | none =>
          evict now
            { s1 with list := s1.list ++ [(k, v)],
                      items := insertKey k s1.items,
                      usedBytes := s1.usedBytes + ((k.length : Int) + (GoValue.len v : Int)) }

/-- Embeds `lruCache.Get`: on a live hit the node moves to the back; an
expired or absent key is a miss (the asynchronous `go c.Delete(key)` of the
expired branch runs in a separate goroutine and is not part of the call's
own state change). -/
def lruGet {α : Type} [GoValue α] (s : LRUState α) (k : String) (now : Int) :
    LRUState α × Option α :=
  match lookupKey k s.list with
  | none => (s, none)
  | some v =>
      match lookupKey k s.expires with
      | some expTime =>
          if now > expTime then (s, none)
          else ({ s with list := eraseKey k s.list ++ [(k, v)] }, some v)
      | none => ({ s with list := eraseKey k s.list ++ [(k, v)] }, some v)

/-- Embeds `lruCache.Clear`. -/
def lruClear {α : Type} [GoValue α] (s : LRUState α) : LRUState α :=
  { s with list := [], items := [], expires := [], usedBytes := 0 }

/-- Embeds `lruCache.UpdateExpiration`: false when the key is absent from
the index; otherwise set the expiry to `now + expiration`, or clear it when
the duration is not positive. -/
def updateExpiration {α : Type} [GoValue α] (s : LRUState α) (k : String)
    (expiration : Int) (now : Int) : LRUState α × Bool :=
  match lookupKey k s.list with
  | none => (s, false)
  | some _ =>
      if 0 < expiration then
        ({ s with expires := setKey k (now + expiration) s.expires }, true)
      else
        ({ s with expires := eraseKey k s.expires }, true)

/-- Embeds `lruCache.Close`: when the cleanup ticker exists it is stopped
and `closeCh` is closed; `close` of an already-closed channel panics
(`none`). -/
def lruClose {α : Type} (s : LRUState α) : Option (LRUState α) :=
  if s.tickerSet then
    if s.closeChClosed then none
    else some { s with closeChClosed := true }
  else some s

/-- One mutating operation on the store, with the instant at which it runs. -/
inductive LRUOp (α : Type) where
  | set (k : String) (v : Option α) (expiration : Int) (now : Int)
  | delete (k : String)
  | clear
  | sweep (now : Int)
  | updateExp (k : String) (expiration : Int) (now : Int)
  | get (k : String) (now : Int)

/-- Apply one operation. -/
def applyOp {α : Type} [GoValue α] (s : LRUState α) : LRUOp α → LRUState α
  | .set k v e now => setWithExpiration s k v e now
  | .delete k => (lruDelete s k).1
  | .clear => lruClear s
  | .sweep now => evict now s
  | .updateExp k e now => (updateExpiration s k e now).1
  | .get k now => (lruGet s k now).1

/-- Run a finite sequence of operations. -/
def runOps {α : Type} [GoValue α] (ops : List (LRUOp α)) (s : LRUState α) : LRUState α :=
  ops.foldl applyOp s

/-- Structural well-formedness of a store state: each key has at most one
list node, the `items` index and the list agree, the `expires` map is a
map, and `usedBytes` is the sum of the entry sizes. -/
structure WF {α : Type} [GoValue α] (s : LRUState α) : Prop where
  nodupList : (keysOf s.list).Nodup
  nodupItems : s.items.Nodup
  itemsIff : ∀ k, k ∈ s.items ↔ k ∈ keysOf s.list
  nodupExpires : (keysOf s.expires).Nodup
  bytesEq : s.usedBytes = listBytes s.list

end LRU

namespace SF

/-!
Interleaving model of `singleflight.Group.Do` for one key and two
goroutines.  Each goroutine runs the straight-line body of `Do`
(singleflight/singleflight.go); every `sync.Map` access and the `fn()`
call is one atomic step, and a schedule is the sequence of goroutine ids
that take successive steps.  Program counters of the runner path:

  0 = about to `g.m.Load(key)`;
  1 = Load missed, about to `g.m.Store(key, c)` (the gap of the
      check-then-act: the call record is NOT yet in the map);
  2 = about to run `fn()`;
  3 = about to `c.wg.Done()`;
  4 = about to `g.m.Delete(key)`;
  5 = returned.

A goroutine whose Load hits an existing record jumps to 10 and waits on
that record's `wg` until its creator has called `Done`.
-/

/-- Shared and per-goroutine state of the two-caller `Do` interleaving:
`slot` is the `sync.Map` entry for the key (identified by the goroutine
that stored it), `callDone` records which call records have completed. -/
structure SFState where
  slot : Option (Fin 2)
  pc : Fin 2 → Nat
  waitingOn : Fin 2 → Option (Fin 2)
  callDone : Fin 2 → Bool
  execCount : Nat

/-- Both goroutines at the top of `Do`, no record stored, `fn` never run. -/
def initSF : SFState :=
  { slot := none, pc := fun _ => 0, waitingOn := fun _ => none,
    callDone := fun _ => false, execCount := 0 }

/-- Pointwise function update for per-goroutine fields. -/
def upd {β : Type} (f : Fin 2 → β) (g : Fin 2) (v : β) : Fin 2 → β :=
  fun i => if i = g then v else f i

/-- One atomic step of goroutine `g` in `Do`. -/
def sfStep (s : SFState) (g : Fin 2) : SFState :=
  match s.pc g with
  | 0 =>
      -- if existing, ok := g.m.Load(key); ok { wait } else fall through
      match s.slot with
      | some owner => { s with pc := upd s.pc g 10, waitingOn := upd s.waitingOn g (some owner) }
      | none => { s with pc := upd s.pc g 1 }
  | 1 => { s with slot := some g, pc := upd s.pc g 2 }          -- g.m.Store(key, c)
  | 2 => { s with execCount := s.execCount + 1, pc := upd s.pc g 3 }   -- c.val, c.err = fn()
  | 3 => { s with callDone := upd s.callDone g true, pc := upd s.pc g 4 }  -- c.wg.Done()
  | 4 => { s with slot := none, pc := upd s.pc g 5 }            -- g.m.Delete(key)
  | 10 =>
      -- c.wg.Wait(): blocked until the record's creator has called Done
      match s.waitingOn g with
      | some owner => if s.callDone owner then { s with pc := upd s.pc g 5 } else s
      | none => s
  | _ => s

/-- Run a schedule from the initial state. -/
def sfRun (sched : List (Fin 2)) : SFState :=
  sched.foldl sfStep initSF

end SF

namespace CH

export AL (lookupKey lookupD eraseKey setKey keysOf)

/-- Embeds the consistent-hash `Config` (replica bounds, hash function,
rebalance threshold).  `HashFunc` yields a `uint32`, modelled as a `Nat`
valued function; float64 load arithmetic is modelled over `ℚ`. -/
structure Config where
  defaultReplicas : Int
  minReplicas : Int
  maxReplicas : Int
  hashFunc : String → Nat
  loadBalanceThreshold : ℚ

/-- Embeds `DefaultConfig` (crc32.ChecksumIEEE left abstract). -/
def DefaultConfig (h : String → Nat) : Config :=
  { defaultReplicas := 50, minReplicas := 10, maxReplicas := 200,
    hashFunc := h, loadBalanceThreshold := 1/4 }

/-- Embeds the consistent-hash `Map`: the ring (`keys`), the virtual-node
to real-node map, replica counts, per-node request counts and the total. -/
structure CHMap where
  config : Config
  keys : List Int
  hashMap : List (Int × String)
  nodeReplicas : List (String × Int)
  nodeCounts : List (String × Int)
  totalRequests : Int

/-- Embeds `New` (before any `Add`). -/
def newRing (cfg : Config) : CHMap :=
  { config := cfg, keys := [], hashMap := [], nodeReplicas := [],
    nodeCounts := [], totalRequests := 0 }

/-- Hash of the virtual node `"node-i"` (`int(m.config.HashFunc(...))`). -/
def virtualHash (cfg : Config) (node : String) (i : Nat) : Int :=
  (cfg.hashFunc (node ++ "-" ++ toString i) : Int)

/-- Embeds `addNode`: append `replicas` virtual-node hashes to `keys`, map
each to the real node, and record the replica count (keys not resorted
here; `Add` and `rebalanceNodes` sort afterwards). -/
def chAddNode (m : CHMap) (node : String) (replicas : Int) : CHMap :=
  let st := (List.range replicas.toNat).foldl
    (fun (st : List Int × List (Int × String)) i =>
      let hash := virtualHash m.config node i
      (st.1 ++ [hash], setKey hash node st.2))
    (m.keys, m.hashMap)
  { m with keys := st.1, hashMap := st.2,
           nodeReplicas := setKey node replicas m.nodeReplicas }

/-- Embeds `Map.Remove` with the mutex elided (its two error paths return
before any mutation).  The inner loop deletes each virtual hash from
`hashMap` and erases its first occurrence in `keys`. -/
def chRemove (m : CHMap) (node : String) : CHMap × Option String :=
  if node = "" then (m, some "invalid node")
  else
    let replicas := lookupD m.nodeReplicas node 0
    if replicas = 0 then (m, some ("node " ++ node ++ " not found"))
    else
      let st := (List.range replicas.toNat).foldl
        (fun (st : List Int × List (Int × String)) i =>
          let hash := virtualHash m.config node i
          (st.1.erase hash, eraseKey hash st.2))
        (m.keys, m.hashMap)
      ({ m with keys := st.1, hashMap := st.2,
                nodeReplicas := eraseKey node m.nodeReplicas,
                nodeCounts := eraseKey node m.nodeCounts }, none)

/-- Go's `int(x)` on a nonneg-or-neg float: truncation toward zero. -/
def goTrunc (q : ℚ) : Int :=
  if 0 ≤ q then ⌊q⌋ else -⌊-q⌋

/-- The replica count `rebalanceNodes` computes for one node: shrink hot
nodes by `1/loadRatio`, grow cold ones by `2 − loadRatio`, then clamp to
`[MinReplicas, MaxReplicas]`. -/
def newReplicasFor (cfg : Config) (currentReplicas : Int) (count : Int) (avgLoad : ℚ) : Int :=
  let loadRatio : ℚ := (count : ℚ) / avgLoad
  let raw : Int :=
    if 1 < loadRatio then goTrunc ((currentReplicas : ℚ) / loadRatio)
    else goTrunc ((currentReplicas : ℚ) * (2 - loadRatio))
  let clampedLow := if raw < cfg.minReplicas then cfg.minReplicas else raw
  if cfg.maxReplicas < clampedLow then cfg.maxReplicas else clampedLow

/-- Embeds `rebalanceNodes` WITH its locking behavior.  The function takes
the write lock `m.mu` and, for any node whose computed replica count
differs from the current one, calls `m.Remove(node)` — which begins by
taking `m.mu` again.  `sync.RWMutex` is not reentrant, so that call never
returns: the result is `none` (self-deadlock).  Only when no node changes
does the function reach the reset of the counters and the resort. -/
def rebalanceNodes (m : CHMap) : Option CHMap :=
  let avgLoad : ℚ := (m.totalRequests : ℚ) / (m.nodeReplicas.length : ℚ)
  if m.nodeCounts.any (fun e =>
      decide (newReplicasFor m.config (lookupD m.nodeReplicas e.1 0) e.2 avgLoad
              ≠ lookupD m.nodeReplicas e.1 0)) then
    none
  else
    some { m with nodeCounts := m.nodeCounts.map (fun e => (e.1, (0 : Int))),
                  totalRequests := 0,
                  keys := m.keys.mergeSort (· ≤ ·) }

/-- Embeds `checkAndRebalance`: skip under 1000 requests; compute the worst
relative deviation from the average load; rebalance if it exceeds the
threshold. -/
def checkAndRebalance (m : CHMap) : Option CHMap :=
  if m.totalRequests < 1000 then some m
  else
    let avgLoad : ℚ := (m.totalRequests : ℚ) / (m.nodeReplicas.length : ℚ)
    let maxDiff : ℚ := m.nodeCounts.foldl
      (fun acc e => max acc (abs ((e.2 : ℚ) - avgLoad) / avgLoad)) 0
    if m.config.loadBalanceThreshold < maxDiff then rebalanceNodes m
    else some m

/-- A ring with two nodes holding 50 replicas each after 1000 routed
requests, 900 of which landed on node A: the observed load state that
triggers a rebalance.  The virtual-node fields (`keys`, `hashMap`) play no
role in the rebalance decision and are left empty. -/
def exampleRing : CHMap :=
  { config := DefaultConfig (fun s => s.length),
    keys := [], hashMap := [],
    nodeReplicas := [("A", 50), ("B", 50)],
    nodeCounts := [("A", 900), ("B", 100)],
    totalRequests := 1000 }

end CH

namespace Grp

export AL (lookupKey eraseKey setKey keysOf)

/-- Per-call stat deltas recorded by `Group.loadData`. -/
structure StatsDelta where
  peerHits : Nat
  peerMisses : Nat
  loaderHits : Nat
deriving DecidableEq

/-- Result of `PeerPicker.PickPeer(key)` as seen by the group. -/
structure PickResult where
  ok : Bool
  isSelf : Bool

/-- Embeds `cloneBytes`: a defensive copy, which for immutable byte lists
is the bytes themselves. -/
def cloneBytes (b : List Nat) : List Nat := b

/-- Embeds `Group.getFromPeer`: wrap a peer failure, keep the bytes. -/
def getFromPeer (r : Except String (List Nat)) : Except String (List Nat) :=
  match r with
  | .ok bytes => .ok bytes
  | .error e => .error ("failed to get from peer: " ++ e)

/-- Embeds `Group.loadData` as a function of the picker outcome, the
peer's `Get` result and the origin getter's result: try a non-self peer
first (hit counts `peerHits`, failure counts `peerMisses` and falls
through), then the origin getter (success counts `loaderHits` and clones
the bytes, failure returns the wrapped origin error). -/
def loadData (hasPeers : Bool) (pick : PickResult)
    (peerRaw : Except String (List Nat)) (getterRes : Except String (List Nat)) :
    StatsDelta × Except String (List Nat) :=
  let fromGetter : Nat → StatsDelta × Except String (List Nat) := fun pm =>
    match getterRes with
    | .error e => (⟨0, pm, 0⟩, .error ("failed to get data: " ++ e))
    | .ok bytes => (⟨0, pm, 1⟩, .ok (cloneBytes bytes))
  if hasPeers ∧ pick.ok = true ∧ pick.isSelf = false then
    match getFromPeer peerRaw with
    | .ok value => (⟨1, 0, 0⟩, .ok value)
    | .error _ => fromGetter 1
  else fromGetter 0

/-- A request context, reduced to the one marker the group consults:
whether `ctx.Value("from_peer")` is non-nil. -/
structure Ctx where
  fromPeer : Bool

/-- Group state relevant to `Set`/`Delete`.  Modelled from the spec: the
`Cache` facade (`mainCache`, its file is not under src/) is a key-value
map over byte lists; `Add`/`AddWithExpiration` store the value under the
key.  The `closed` flag, peer wiring and validation are from group.go. -/
structure GroupState where
  closed : Bool
  hasPeers : Bool
  expiration : Int
  cache : List (String × List Nat)

/-- Embeds `Group.Set`: closed/empty-key/empty-value validation, the
`from_peer` check, the local cache write, and whether a `syncToPeers`
propagation goroutine is spawned (the returned Bool). -/
def groupSet (g : GroupState) (ctx : Ctx) (k : String) (v : List Nat) :
    GroupState × Option String × Bool :=
  if g.closed then (g, some "cache group is closed", false)
  else if k = "" then (g, some "key is required", false)
  else if v = [] then (g, some "value is required", false)
  else
    let isPeerRequest := ctx.fromPeer
    let g1 := { g with cache := setKey k (cloneBytes v) g.cache }
    if ¬isPeerRequest ∧ g.hasPeers then (g1, none, true)
    else (g1, none, false)

/-- Embeds `Group.Delete`: validation, local cache delete, and whether a
`syncToPeers` propagation goroutine is spawned. -/
def groupDelete (g : GroupState) (ctx : Ctx) (k : String) :
    GroupState × Option String × Bool :=
  if g.closed then (g, some "cache group is closed", false)
  else if k = "" then (g, some "key is required", false)
  else
    let g1 := { g with cache := eraseKey k g.cache }
    let isPeerRequest := ctx.fromPeer
    if ¬isPeerRequest ∧ g.hasPeers then (g1, none, true)
    else (g1, none, false)

/-- Embeds the server-side `Server.Set` handler: tag the context with
`from_peer=true` when the marker is absent, then call `Group.Set`. -/
def serverSet (g : GroupState) (ctx : Ctx) (k : String) (v : List Nat) :
    GroupState × Option String × Bool :=
  let ctx2 := if ctx.fromPeer then ctx else { fromPeer := true }
  groupSet g ctx2 k v

end Grp

namespace AL

theorem keysOf_nil {κ β : Type} : keysOf ([] : List (κ × β)) = [] := rfl

theorem keysOf_cons {κ β : Type} (e : κ × β) (l : List (κ × β)) :
    keysOf (e :: l) = e.1 :: keysOf l := rfl

theorem keysOf_append {κ β : Type} (l l2 : List (κ × β)) :
    keysOf (l ++ l2) = keysOf l ++ keysOf l2 := by
  simp [keysOf]

theorem lookupKey_eq_none {κ β : Type} [DecidableEq κ] {k : κ} {l : List (κ × β)} :
    lookupKey k l = none ↔ k ∉ keysOf l := by
  induction l with
  | nil => simp [lookupKey, keysOf_nil]
  | cons e rest ih =>
      by_cases h : e.1 = k
      · simp [lookupKey, h, keysOf_cons]
      · simp only [lookupKey, h, if_false, keysOf_cons, List.mem_cons, not_or]
        rw [ih]
        exact ⟨fun hk => ⟨fun hke => h hke.symm, hk⟩, fun hk => hk.2⟩

theorem lookupKey_isSome_of_mem {κ β : Type} [DecidableEq κ] {k : κ} {l : List (κ × β)}
    (h : k ∈ keysOf l) : ∃ v, lookupKey k l = some v := by
  rcases hv : lookupKey k l with _ | v
  · exact absurd h (lookupKey_eq_none.mp hv)
  · exact ⟨v, rfl⟩

theorem eraseKey_sublist {κ β : Type} [DecidableEq κ] (k : κ) (l : List (κ × β)) :
    List.Sublist (eraseKey k l) l := by
  induction l with
  | nil => simp [eraseKey]
  | cons e rest ih =>
      by_cases h : e.1 = k
      · simpa [eraseKey, h] using List.sublist_cons_self e rest
      · simpa [eraseKey, h] using ih.cons₂ e

theorem keysOf_nodup_eraseKey {κ β : Type} [DecidableEq κ] {k : κ} {l : List (κ × β)}
    (h : (keysOf l).Nodup) : (keysOf (eraseKey k l)).Nodup :=
  h.sublist ((eraseKey_sublist k l).map Prod.fst)

theorem mem_keysOf_eraseKey_of_ne {κ β : Type} [DecidableEq κ] {a k : κ} {l : List (κ × β)}
    (h : a ≠ k) : a ∈ keysOf (eraseKey k l) ↔ a ∈ keysOf l := by
  induction l with
  | nil => simp [eraseKey]
  | cons e rest ih =>
      by_cases he : e.1 = k
      · subst he
        simp only [eraseKey, if_pos rfl, keysOf_cons, List.mem_cons]
        constructor
        · exact Or.inr
        · rintro (hae | hm)
          · exact absurd hae h
          · exact hm
      · simp only [eraseKey, if_neg he, keysOf_cons, List.mem_cons]
        rw [ih]

theorem not_mem_keysOf_eraseKey {κ β : Type} [DecidableEq κ] {k : κ} {l : List (κ × β)}
    (h : (keysOf l).Nodup) : k ∉ keysOf (eraseKey k l) := by
  induction l with
  | nil => simp [eraseKey, keysOf_nil]
  | cons e rest ih =>
      rw [keysOf_cons, List.nodup_cons] at h
      by_cases he : e.1 = k
      · subst he
        simpa [eraseKey] using h.1
      · simp only [eraseKey, if_neg he, keysOf_cons, List.mem_cons, not_or]
        exact ⟨fun hk => he hk.symm, ih h.2⟩

theorem lookupKey_eraseKey_of_ne {κ β : Type} [DecidableEq κ] {a k : κ} {l : List (κ × β)}
    (h : a ≠ k) : lookupKey a (eraseKey k l) = lookupKey a l := by
  induction l with
  | nil => simp [eraseKey]
  | cons e rest ih =>
      by_cases he : e.1 = k
      · subst he
        have hne : e.1 ≠ a := fun hh => h hh.symm
        simp [eraseKey, lookupKey, hne]
      · by_cases hea : e.1 = a
        · subst hea
          simp [eraseKey, lookupKey, he]
        · simp [eraseKey, lookupKey, he, hea, ih]

theorem lookupKey_setKey_self {κ β : Type} [DecidableEq κ] (k : κ) (v : β) (l : List (κ × β)) :
    lookupKey k (setKey k v l) = some v := by
  induction l with
  | nil => simp [setKey, lookupKey]
  | cons e rest ih =>
      by_cases he : e.1 = k <;> simp [setKey, lookupKey, he, ih]

theorem mem_keysOf_setKey {κ β : Type} [DecidableEq κ] {a k : κ} {v : β} {l : List (κ × β)} :
    a ∈ keysOf (setKey k v l) ↔ a = k ∨ a ∈ keysOf l := by
  induction l with
  | nil => simp [setKey, keysOf_cons, keysOf_nil]
  | cons e rest ih =>
      by_cases he : e.1 = k
      · subst he
        simp only [setKey, if_true]
        simp only [keysOf_cons, List.mem_cons]
        tauto
      · simp only [setKey]
        rw [if_neg he]
        simp only [keysOf_cons, List.mem_cons]
        rw [ih]
        tauto

theorem keysOf_nodup_setKey {κ β : Type} [DecidableEq κ] {k : κ} {v : β} {l : List (κ × β)}
    (h : (keysOf l).Nodup) : (keysOf (setKey k v l)).Nodup := by
  induction l with
  | nil => simp [setKey, keysOf_cons, keysOf_nil]
  | cons e rest ih =>
      rw [keysOf_cons, List.nodup_cons] at h
      by_cases he : e.1 = k
      · subst he
        rw [setKey, if_pos rfl, keysOf_cons, List.nodup_cons]
        exact h
      · rw [setKey, if_neg he, keysOf_cons, List.nodup_cons]
        refine ⟨fun hm => ?_, ih h.2⟩
        rcases mem_keysOf_setKey.mp hm with hek | hm2
        · exact he hek
        · exact h.1 hm2

end AL

namespace LRU

theorem listBytes_append {α : Type} [GoValue α] (l l2 : List (String × α)) :
    listBytes (l ++ l2) = listBytes l + listBytes l2 := by
  simp [listBytes]

theorem listBytes_eraseKey {α : Type} [GoValue α] {k : String} {v : α}
    {l : List (String × α)} (h : lookupKey k l = some v) :
    listBytes (eraseKey k l) = listBytes l - entryBytes (k, v) := by
  induction l with
  | nil => simp [lookupKey] at h
  | cons e rest ih =>
      by_cases he : e.1 = k
      · rw [lookupKey, if_pos he] at h
        rw [AL.eraseKey, if_pos he]
        injection h with h2
        subst h2
        subst he
        simp only [listBytes, List.map_cons, List.sum_cons, Prod.mk.eta]
        ring
      · rw [lookupKey, if_neg he] at h
        rw [AL.eraseKey, if_neg he]
        simp only [listBytes, List.map_cons, List.sum_cons] at ih ⊢
        rw [ih h]
        ring

theorem lookupKey_of_mem_keys {α : Type} {k : String} {l : List (String × α)}
    (h : k ∈ keysOf l) : lookupKey k l ≠ none :=
  fun hn => absurd h (AL.lookupKey_eq_none.mp hn)

theorem wf_newLRUCache (α : Type) [GoValue α] (maxB : Int) : WF (newLRUCache α maxB) := by
  constructor <;> simp [newLRUCache, keysOf, listBytes]

theorem evictCapacityGo_nil {α : Type} [GoValue α] {s : LRUState α} (h : s.list = [])
    (n : Nat) : evictCapacityGo n s = s := by
  cases n with
  | zero => rfl
  | succ n =>
      rw [evictCapacityGo, h]

theorem evictCapacityGo_succ_go {α : Type} [GoValue α] {s : LRUState α} {e : String × α}
    {rest : List (String × α)} (h : s.list = e :: rest)
    (hg : 0 < s.maxBytes ∧ s.maxBytes < s.usedBytes) (n : Nat) :
    evictCapacityGo (n + 1) s = evictCapacityGo n
      { s with list := rest, items := s.items.erase e.1,
               expires := eraseKey e.1 s.expires,
               usedBytes := s.usedBytes - entryBytes e } := by
  rw [evictCapacityGo, h]
  dsimp only
  rw [if_pos hg]

theorem evictCapacityGo_succ_stop {α : Type} [GoValue α] {s : LRUState α} {e : String × α}
    {rest : List (String × α)} (h : s.list = e :: rest)
    (hg : ¬(0 < s.maxBytes ∧ s.maxBytes < s.usedBytes)) (n : Nat) :
    evictCapacityGo (n + 1) s = s := by
  rw [evictCapacityGo, h]
  dsimp only
  rw [if_neg hg]

theorem evictCapacity_nil {α : Type} [GoValue α] {s : LRUState α} (h : s.list = []) :
    evictCapacity s = s :=
  evictCapacityGo_nil h _

theorem evictCapacity_cons_go {α : Type} [GoValue α] {s : LRUState α} {e : String × α}
    {rest : List (String × α)} (h : s.list = e :: rest)
    (hg : 0 < s.maxBytes ∧ s.maxBytes < s.usedBytes) :
    evictCapacity s = evictCapacity
      { s with list := rest, items := s.items.erase e.1,
               expires := eraseKey e.1 s.expires,
               usedBytes := s.usedBytes - entryBytes e } := by
  unfold evictCapacity
  rw [h, List.length_cons]
  exact evictCapacityGo_succ_go h hg rest.length

theorem evictCapacity_cons_stop {α : Type} [GoValue α] {s : LRUState α} {e : String × α}
    {rest : List (String × α)} (h : s.list = e :: rest)
    (hg : ¬(0 < s.maxBytes ∧ s.maxBytes < s.usedBytes)) :
    evictCapacity s = s := by
  unfold evictCapacity
  rw [h, List.length_cons]
  exact evictCapacityGo_succ_stop h hg rest.length

theorem evictCapacityGo_maxBytes {α : Type} [GoValue α] (n : Nat) :
    ∀ s : LRUState α, (evictCapacityGo n s).maxBytes = s.maxBytes := by
  induction n with
  | zero => intro s; rfl
  | succ n ih =>
      intro s
      rcases h : s.list with _ | ⟨e, rest⟩
      · rw [evictCapacityGo_nil h]
      · by_cases hg : 0 < s.maxBytes ∧ s.maxBytes < s.usedBytes
        · rw [evictCapacityGo_succ_go h hg, ih]
        · rw [evictCapacityGo_succ_stop h hg]

theorem evictCapacity_maxBytes {α : Type} [GoValue α] (s : LRUState α) :
    (evictCapacity s).maxBytes = s.maxBytes :=
  evictCapacityGo_maxBytes _ s

theorem evictCapacityGo_bound {α : Type} [GoValue α] (n : Nat) :
    ∀ s : LRUState α, s.list.length ≤ n → 0 < s.maxBytes →
      (evictCapacityGo n s).usedBytes ≤ s.maxBytes ∨ (evictCapacityGo n s).list = [] := by
  induction n with
  | zero =>
      intro s hn _
      right
      rw [evictCapacityGo_nil (List.length_eq_zero.mp (Nat.le_zero.mp hn))]
      exact List.length_eq_zero.mp (Nat.le_zero.mp hn)
  | succ n ih =>
      intro s hn hpos
      rcases h : s.list with _ | ⟨e, rest⟩
      · right
        rw [evictCapacityGo_nil h]
        exact h
      · by_cases hg : 0 < s.maxBytes ∧ s.maxBytes < s.usedBytes
        · rw [evictCapacityGo_succ_go h hg]
          have hlen : rest.length ≤ n := by
            rw [h, List.length_cons] at hn
            omega
          exact ih _ hlen hpos
        · left
          rw [evictCapacityGo_succ_stop h hg]
          rcases not_and_or.mp hg with hm | hu
          · exact absurd hpos hm
          · exact le_of_not_lt hu

/-- Exit condition of the capacity loop: once it stops, either the byte
bound holds or the list has been emptied (given a positive bound). -/
theorem evictCapacity_bound {α : Type} [GoValue α] (s : LRUState α)
    (hpos : 0 < s.maxBytes) :
    (evictCapacity s).usedBytes ≤ s.maxBytes ∨ (evictCapacity s).list = [] :=
  evictCapacityGo_bound _ s le_rfl hpos

theorem evictCapacityGo_drop {α : Type} [GoValue α] (n : Nat) :
    ∀ s : LRUState α, ∃ m, (evictCapacityGo n s).list = s.list.drop m := by
  induction n with
  | zero => exact fun s => ⟨0, by rw [List.drop_zero]; rfl⟩
  | succ n ih =>
      intro s
      rcases h : s.list with _ | ⟨e, rest⟩
      · exact ⟨0, by rw [evictCapacityGo_nil h, List.drop_zero]; exact h⟩
      · by_cases hg : 0 < s.maxBytes ∧ s.maxBytes < s.usedBytes
        · obtain ⟨m, hm⟩ := ih
            { s with list := rest, items := s.items.erase e.1,
                     expires := eraseKey e.1 s.expires,
                     usedBytes := s.usedBytes - entryBytes e }
          refine ⟨m + 1, ?_⟩
          rw [evictCapacityGo_succ_go h hg, hm]
          rfl
        · exact ⟨0, by rw [evictCapacityGo_succ_stop h hg, List.drop_zero]; exact h⟩

/-- The capacity loop removes entries only from the front: the surviving
list is a suffix (a `drop`) of the original recency list. -/
theorem evictCapacity_drop {α : Type} [GoValue α] (s : LRUState α) :
    ∃ n, (evictCapacity s).list = s.list.drop n :=
  evictCapacityGo_drop _ s

theorem removeElement_maxBytes {α : Type} [GoValue α] (s : LRUState α) (k : String) :
    (removeElement s k).maxBytes = s.maxBytes := by
  unfold removeElement
  rcases lookupKey k s.list with _ | v <;> rfl

theorem foldl_removeElement_maxBytes {α : Type} [GoValue α] (ks : List String) :
    ∀ s : LRUState α, (ks.foldl removeElement s).maxBytes = s.maxBytes := by
  induction ks with
  | nil => intro s; rfl
  | cons k ks ih =>
      intro s
      rw [List.foldl_cons, ih, removeElement_maxBytes]

theorem sweepExpired_maxBytes {α : Type} [GoValue α] (now : Int) (s : LRUState α) :
    (sweepExpired now s).maxBytes = s.maxBytes :=
  foldl_removeElement_maxBytes _ s

theorem evict_maxBytes {α : Type} [GoValue α] (now : Int) (s : LRUState α) :
    (evict now s).maxBytes = s.maxBytes := by
  rw [evict, evictCapacity_maxBytes, sweepExpired_maxBytes]

/-- After `evict`, with a positive bound, the store is within budget or
empty. -/
theorem evict_bound {α : Type} [GoValue α] (now : Int) (s : LRUState α)
    (hpos : 0 < s.maxBytes) :
    (evict now s).usedBytes ≤ s.maxBytes ∨ (evict now s).list = [] := by
  have h := evictCapacity_bound (sweepExpired now s)
    (by rw [sweepExpired_maxBytes]; exact hpos)
  rw [sweepExpired_maxBytes] at h
  exact h

theorem wf_removeElement {α : Type} [GoValue α] {s : LRUState α} (h : WF s) (k : String) :
    WF (removeElement s k) := by
  unfold removeElement
  rcases hv : lookupKey k s.list with _ | v
  · exact h
  · have hkmem : k ∈ keysOf s.list := by
      by_contra hk
      rw [AL.lookupKey_eq_none.mpr hk] at hv
      cases hv
    constructor
    · exact AL.keysOf_nodup_eraseKey h.nodupList
    · exact h.nodupItems.erase k
    · intro a
      by_cases ha : a = k
      · subst ha
        simp [List.Nodup.mem_erase_iff h.nodupItems,
              AL.not_mem_keysOf_eraseKey h.nodupList]
      · simp [List.Nodup.mem_erase_iff h.nodupItems, ha,
              AL.mem_keysOf_eraseKey_of_ne ha, h.itemsIff a]
    · exact AL.keysOf_nodup_eraseKey h.nodupExpires
    · simpa [listBytes_eraseKey hv] using congrArg (· - entryBytes (k, v)) h.bytesEq

/-- The inlined loop body of `evictCapacity` is exactly `removeElement`
applied to the key of the front node. -/
theorem evictCapacity_cons_removeElement {α : Type} [GoValue α] {s : LRUState α}
    {e : String × α} {rest : List (String × α)} (h : s.list = e :: rest) :
    removeElement s e.1 =
      { s with list := rest, items := s.items.erase e.1,
               expires := eraseKey e.1 s.expires,
               usedBytes := s.usedBytes - entryBytes e } := by
  unfold removeElement
  rw [h]
  simp [lookupKey, AL.eraseKey]


theorem wf_evictCapacityGo {α : Type} [GoValue α] (n : Nat) :
    ∀ {s : LRUState α}, WF s → WF (evictCapacityGo n s) := by
  induction n with
  | zero => exact fun h => h
  | succ n ih =>
      intro s hwf
      rcases h : s.list with _ | ⟨e, rest⟩
      · rw [evictCapacityGo_nil h]
        exact hwf
      · by_cases hg : 0 < s.maxBytes ∧ s.maxBytes < s.usedBytes
        · rw [evictCapacityGo_succ_go h hg]
          exact ih (by rw [← evictCapacity_cons_removeElement h]; exact wf_removeElement hwf e.1)
        · rw [evictCapacityGo_succ_stop h hg]
          exact hwf

theorem wf_evictCapacity {α : Type} [GoValue α] {s : LRUState α} (hwf : WF s) :
    WF (evictCapacity s) :=
  wf_evictCapacityGo _ hwf

theorem wf_foldl_removeElement {α : Type} [GoValue α] (ks : List String) :
    ∀ s : LRUState α, WF s → WF (ks.foldl removeElement s) := by
  induction ks with
  | nil => exact fun s h => h
  | cons k ks ih =>
      intro s h
      rw [List.foldl_cons]
      exact ih _ (wf_removeElement h k)

theorem wf_sweepExpired {α : Type} [GoValue α] (now : Int) {s : LRUState α} (h : WF s) :
    WF (sweepExpired now s) :=
  wf_foldl_removeElement _ s h

theorem wf_evict {α : Type} [GoValue α] (now : Int) {s : LRUState α} (h : WF s) :
    WF (evict now s) :=
  wf_evictCapacity (wf_sweepExpired now h)

theorem listBytes_erase_append {α : Type} [GoValue α] {k : String} {oldV : α}
    {l : List (String × α)} (h : lookupKey k l = some oldV) (v : α) :
    listBytes (eraseKey k l ++ [(k, v)]) =
      listBytes l - entryBytes (k, oldV) + entryBytes (k, v) := by
  rw [listBytes_append, listBytes_eraseKey h]
  simp [listBytes]

theorem nodup_keys_erase_append {α : Type} {k : String} {v : α}
    {l : List (String × α)} (hn : (keysOf l).Nodup) :
    (keysOf (eraseKey k l ++ [(k, v)])).Nodup := by
  rw [AL.keysOf_append]
  rw [List.nodup_append]
  refine ⟨AL.keysOf_nodup_eraseKey hn, List.nodup_singleton k, ?_⟩
  intro a ha hb
  simp [keysOf] at hb
  subst hb
  exact AL.not_mem_keysOf_eraseKey hn ha

theorem mem_keys_erase_append {α : Type} {a k : String} {v : α}
    {l : List (String × α)} (hk : k ∈ keysOf l) :
    a ∈ keysOf (eraseKey k l ++ [(k, v)]) ↔ a ∈ keysOf l := by
  rw [AL.keysOf_append]
  show a ∈ keysOf (eraseKey k l) ++ [k] ↔ a ∈ keysOf l
  rw [List.mem_append, List.mem_singleton]
  by_cases ha : a = k
  · subst ha
    simp [hk]
  · simp [ha, AL.mem_keysOf_eraseKey_of_ne ha]

/-- Moving the node of `k` to the back of the recency list, leaving all
other fields alone, preserves well-formedness (`Get`'s recency update). -/
theorem wf_moveToBack {α : Type} [GoValue α] {s : LRUState α} {k : String} {v : α}
    (hwf : WF s) (hv : lookupKey k s.list = some v) :
    WF { s with list := eraseKey k s.list ++ [(k, v)] } := by
  have hk : k ∈ keysOf s.list := by
    by_contra hk
    rw [AL.lookupKey_eq_none.mpr hk] at hv
    cases hv
  constructor
  · exact nodup_keys_erase_append hwf.nodupList
  · exact hwf.nodupItems
  · intro a
    rw [show ({ s with list := eraseKey k s.list ++ [(k, v)] } : LRUState α).items = s.items from rfl]
    rw [hwf.itemsIff a]
    exact (mem_keys_erase_append hk).symm
  · exact hwf.nodupExpires
  · have := listBytes_erase_append hv v
    simp only [this, hwf.bytesEq]
    ring

theorem wf_lruDelete {α : Type} [GoValue α] {s : LRUState α} (h : WF s) (k : String) :
    WF (lruDelete s k).1 := by
  unfold lruDelete
  rcases hv : lookupKey k s.list with _ | v
  · exact h
  · exact wf_removeElement h k

theorem wf_lruClear {α : Type} [GoValue α] {s : LRUState α} (_ : WF s) :
    WF (lruClear s) := by
  constructor <;> simp [lruClear, keysOf, listBytes]

theorem insertKey_of_not_mem {k : String} {l : List String} (h : k ∉ l) :
    insertKey k l = k :: l := by
  simp [insertKey, h]

theorem nodup_keys_append_new {α : Type} {k : String} {v : α}
    {l : List (String × α)} (hn : (keysOf l).Nodup) (hk : k ∉ keysOf l) :
    (keysOf (l ++ [(k, v)])).Nodup := by
  rw [AL.keysOf_append]
  rw [List.nodup_append]
  refine ⟨hn, List.nodup_singleton k, ?_⟩
  intro a ha hb
  have hak : a = k := by simpa [keysOf] using hb
  subst hak
  exact hk ha

theorem wf_setWithExpiration {α : Type} [GoValue α] {s : LRUState α} (hwf : WF s)
    (k : String) (value : Option α) (expiration now : Int) :
    WF (setWithExpiration s k value expiration now) := by
  unfold setWithExpiration
  cases value with
  | none => exact wf_lruDelete hwf k
  | some v =>
      dsimp only
      have hexp2 : (keysOf (if 0 < expiration then setKey k (now + expiration) s.expires
          else eraseKey k s.expires)).Nodup := by
        split_ifs
        · exact AL.keysOf_nodup_setKey hwf.nodupExpires
        · exact AL.keysOf_nodup_eraseKey hwf.nodupExpires
      rcases hv : lookupKey k s.list with _ | oldV
      · -- insert branch, then evict
        have hknot : k ∉ keysOf s.list := AL.lookupKey_eq_none.mp hv
        have hitems : k ∉ s.items := fun hm => hknot ((hwf.itemsIff k).mp hm)
        refine wf_evict now ?_
        rw [insertKey_of_not_mem hitems]
        constructor
        · rw [AL.keysOf_append]
          show ((keysOf s.list) ++ [k]).Nodup
          rw [List.nodup_append]
          refine ⟨hwf.nodupList, List.nodup_singleton k, ?_⟩
          intro a ha hb
          have hak : a = k := by simpa using hb
          subst hak
          exact hknot ha
        · exact List.nodup_cons.mpr ⟨hitems, hwf.nodupItems⟩
        · intro a
          rw [AL.keysOf_append]
          show a ∈ k :: s.items ↔ a ∈ keysOf s.list ++ [k]
          rw [List.mem_cons, List.mem_append, List.mem_singleton, or_comm]
          rw [hwf.itemsIff a]
        · exact hexp2
        · show s.usedBytes + ((k.length : Int) + (GoValue.len v : Int)) =
            listBytes (s.list ++ [(k, v)])
          rw [listBytes_append, hwf.bytesEq]
          simp [listBytes, entryBytes]
      · -- update-in-place branch
        have hk : k ∈ keysOf s.list := by
          by_contra hk
          rw [AL.lookupKey_eq_none.mpr hk] at hv
          cases hv
        constructor
        · exact nodup_keys_erase_append hwf.nodupList
        · exact hwf.nodupItems
        · intro a
          show a ∈ s.items ↔ a ∈ keysOf (eraseKey k s.list ++ [(k, v)])
          rw [hwf.itemsIff a]
          exact (mem_keys_erase_append hk).symm
        · exact hexp2
        · show s.usedBytes + ((GoValue.len v : Int) - (GoValue.len oldV : Int)) =
            listBytes (eraseKey k s.list ++ [(k, v)])
          rw [listBytes_erase_append hv v, hwf.bytesEq]
          simp [entryBytes]
          ring

theorem wf_lruGet {α : Type} [GoValue α] {s : LRUState α} (hwf : WF s)
    (k : String) (now : Int) : WF (lruGet s k now).1 := by
  unfold lruGet
  rcases hv : lookupKey k s.list with _ | v
  · exact hwf
  · dsimp only
    rcases lookupKey k s.expires with _ | expTime
    · exact wf_moveToBack hwf hv
    · dsimp only
      split_ifs
      · exact hwf
      · exact wf_moveToBack hwf hv

theorem wf_updateExpiration {α : Type} [GoValue α] {s : LRUState α} (hwf : WF s)
    (k : String) (expiration now : Int) : WF (updateExpiration s k expiration now).1 := by
  unfold updateExpiration
  rcases lookupKey k s.list with _ | v
  · exact hwf
  · dsimp only
    split_ifs
    · exact { hwf with nodupExpires := AL.keysOf_nodup_setKey hwf.nodupExpires }
    · exact { hwf with nodupExpires := AL.keysOf_nodup_eraseKey hwf.nodupExpires }

theorem wf_applyOp {α : Type} [GoValue α] {s : LRUState α} (hwf : WF s)
    (op : LRUOp α) : WF (applyOp s op) := by
  cases op with
  | set k v e now => exact wf_setWithExpiration hwf k v e now
  | delete k => exact wf_lruDelete hwf k
  | clear => exact wf_lruClear hwf
  | sweep now => exact wf_evict now hwf
  | updateExp k e now => exact wf_updateExpiration hwf k e now
  | get k now => exact wf_lruGet hwf k now

/-- Well-formedness is an invariant of every operation sequence started
from a fresh store. -/
theorem wf_runOps {α : Type} [GoValue α] (ops : List (LRUOp α)) :
    ∀ {s : LRUState α}, WF s → WF (runOps ops s) := by
  induction ops with
  | nil => exact fun h => h
  | cons op ops ih =>
      intro s h
      exact ih (wf_applyOp h op)

end LRU

namespace LRU

theorem setWithExpiration_none {α : Type} [GoValue α] (s : LRUState α) (k : String)
    (expiration now : Int) :
    setWithExpiration s k none expiration now = (lruDelete s k).1 := rfl

theorem setWithExpiration_update {α : Type} [GoValue α] {s : LRUState α} {k : String}
    {oldV : α} (hv : lookupKey k s.list = some oldV) (v : α) (expiration now : Int) :
    setWithExpiration s k (some v) expiration now =
      { s with expires := if 0 < expiration then setKey k (now + expiration) s.expires
                          else eraseKey k s.expires,
               usedBytes := s.usedBytes + ((GoValue.len v : Int) - (GoValue.len oldV : Int)),
               list := eraseKey k s.list ++ [(k, v)] } := by
  unfold setWithExpiration
  dsimp only
  rw [hv]

theorem setWithExpiration_insert {α : Type} [GoValue α] {s : LRUState α} {k : String}
    (hfresh : lookupKey k s.list = none) (v : α) (expiration now : Int) :
    setWithExpiration s k (some v) expiration now =
      evict now
        { s with list := s.list ++ [(k, v)],
                 items := insertKey k s.items,
                 expires := if 0 < expiration then setKey k (now + expiration) s.expires
                            else eraseKey k s.expires,
                 usedBytes := s.usedBytes + ((k.length : Int) + (GoValue.len v : Int)) } := by
  unfold setWithExpiration
  dsimp only
  rw [hfresh]

theorem applyOp_maxBytes {α : Type} [GoValue α] (s : LRUState α) (op : LRUOp α) :
    (applyOp s op).maxBytes = s.maxBytes := by
  cases op with
  | set k v e now =>
      show (setWithExpiration s k v e now).maxBytes = s.maxBytes
      cases v with
      | none =>
          rw [setWithExpiration_none]
          unfold lruDelete
          rcases lookupKey k s.list with _ | v
          · rfl
          · exact removeElement_maxBytes s k
      | some v =>
          rcases hv : lookupKey k s.list with _ | oldV
          · rw [setWithExpiration_insert hv, evict_maxBytes]
          · rw [setWithExpiration_update hv]
  | delete k =>
      show (lruDelete s k).1.maxBytes = s.maxBytes
      unfold lruDelete
      rcases lookupKey k s.list with _ | v
      · rfl
      · exact removeElement_maxBytes s k
  | clear => rfl
  | sweep now => exact evict_maxBytes now s
  | updateExp k e now =>
      show (updateExpiration s k e now).1.maxBytes = s.maxBytes
      unfold updateExpiration
      rcases lookupKey k s.list with _ | v
      · rfl
      · dsimp only
        split_ifs <;> rfl
  | get k now =>
      show (lruGet s k now).1.maxBytes = s.maxBytes
      unfold lruGet
      rcases lookupKey k s.list with _ | v
      · rfl
      · dsimp only
        rcases lookupKey k s.expires with _ | t
        · rfl
        · dsimp only
          split_ifs <;> rfl

theorem runOps_maxBytes {α : Type} [GoValue α] (ops : List (LRUOp α)) :
    ∀ s : LRUState α, (runOps ops s).maxBytes = s.maxBytes := by
  induction ops with
  | nil => intro s; rfl
  | cons op ops ih =>
      intro s
      show (runOps ops (applyOp s op)).maxBytes = s.maxBytes
      rw [ih, applyOp_maxBytes]

theorem lookupKey_append_right {α : Type} {k : String} {l : List (String × α)}
    (hk : k ∉ keysOf l) (v : α) : lookupKey k (l ++ [(k, v)]) = some v := by
  induction l with
  | nil => simp [lookupKey]
  | cons e rest ih =>
      rw [AL.keysOf_cons, List.mem_cons] at hk
      push_neg at hk
      rw [List.cons_append, lookupKey, if_neg (fun he => hk.1 he.symm)]
      exact ih hk.2

theorem lookupKey_eraseKey_self {α : Type} {k : String} {l : List (String × α)}
    (hn : (keysOf l).Nodup) : lookupKey k (eraseKey k l) = none :=
  AL.lookupKey_eq_none.mpr (AL.not_mem_keysOf_eraseKey hn)

theorem mem_of_mem_expiredKeys {now : Int} {k : String} {exp : List (String × Int)}
    (h : k ∈ expiredKeys now exp) : k ∈ keysOf exp := by
  unfold expiredKeys at h
  unfold keysOf at h ⊢
  exact List.mem_map.mpr (by
    obtain ⟨e, he, hk⟩ := List.mem_map.mp h
    exact ⟨e, List.mem_of_mem_filter he, hk⟩)

theorem lookupKey_removeElement_of_ne {α : Type} [GoValue α] {s : LRUState α}
    {k k2 : String} (h : k ≠ k2) :
    lookupKey k (removeElement s k2).list = lookupKey k s.list := by
  unfold removeElement
  rcases lookupKey k2 s.list with _ | v
  · rfl
  · exact AL.lookupKey_eraseKey_of_ne h

theorem lookupKey_foldl_removeElement {α : Type} [GoValue α] (ks : List String) :
    ∀ {s : LRUState α} {k : String}, k ∉ ks →
      lookupKey k (ks.foldl removeElement s).list = lookupKey k s.list := by
  induction ks with
  | nil => intro s k _; rfl
  | cons k2 ks ih =>
      intro s k hk
      rw [List.mem_cons, not_or] at hk
      rw [List.foldl_cons, ih hk.2, lookupKey_removeElement_of_ne hk.1]

theorem evictCapacity_no_limit {α : Type} [GoValue α] {s : LRUState α}
    (h : ¬ 0 < s.maxBytes) : evictCapacity s = s := by
  rcases hl : s.list with _ | ⟨e, rest⟩
  · exact evictCapacity_nil hl
  · exact evictCapacity_cons_stop hl (fun hg => h hg.1)

end LRU

namespace LRU

/-- C2: after any finite sequence of store operations, if the final
`SetWithExpiration` inserts a fresh key (a true insertion), then once its
eviction has completed the store satisfies `usedBytes ≤ maxBytes` or has an
empty recency list (whenever `maxBytes > 0`); moreover capacity eviction
only ever removes entries from the front of the recency list. -/
theorem lru_capacity_bound_after_final_insert {α : Type} [GoValue α]
    (maxB : Int) (ops : List (LRUOp α)) (k : String) (v : α) (expiration now : Int)
    (hfresh : lookupKey k (runOps ops (newLRUCache α maxB)).list = none) :
    (0 < maxB →
      (setWithExpiration (runOps ops (newLRUCache α maxB)) k (some v) expiration now).usedBytes ≤ maxB ∨
      (setWithExpiration (runOps ops (newLRUCache α maxB)) k (some v) expiration now).list = []) ∧
    (∀ t : LRUState α, ∃ n, (evictCapacity t).list = t.list.drop n) := by
  refine ⟨?_, fun t => evictCapacity_drop t⟩
  intro hpos
  rw [setWithExpiration_insert hfresh]
  have hmax : (runOps ops (newLRUCache α maxB)).maxBytes = maxB :=
    runOps_maxBytes ops (newLRUCache α maxB)
  have hb := evict_bound now
    { runOps ops (newLRUCache α maxB) with
      list := (runOps ops (newLRUCache α maxB)).list ++ [(k, v)],
      items := insertKey k (runOps ops (newLRUCache α maxB)).items,
      expires := if 0 < expiration then setKey k (now + expiration) (runOps ops (newLRUCache α maxB)).expires
                 else eraseKey k (runOps ops (newLRUCache α maxB)).expires,
      usedBytes := (runOps ops (newLRUCache α maxB)).usedBytes + ((k.length : Int) + (GoValue.len v : Int)) }
    (by show 0 < (runOps ops (newLRUCache α maxB)).maxBytes; rw [hmax]; exact hpos)
  rw [show ({ runOps ops (newLRUCache α maxB) with
      list := (runOps ops (newLRUCache α maxB)).list ++ [(k, v)],
      items := insertKey k (runOps ops (newLRUCache α maxB)).items,
      expires := if 0 < expiration then setKey k (now + expiration) (runOps ops (newLRUCache α maxB)).expires
                 else eraseKey k (runOps ops (newLRUCache α maxB)).expires,
      usedBytes := (runOps ops (newLRUCache α maxB)).usedBytes + ((k.length : Int) + (GoValue.len v : Int)) } : LRUState α).maxBytes = maxB from hmax] at hb
  exact hb

/-- C2 witness: a concrete two-entry history with a fresh final insertion
satisfies the hypothesis, and the bound holds. -/
theorem lru_capacity_bound_after_final_insert_witness :
    lookupKey "b" (runOps [LRUOp.set "a" (some [1]) 0 0] (newLRUCache (List Nat) 3)).list = none ∧
    ((0 : Int) < 3 →
      (setWithExpiration (runOps [LRUOp.set "a" (some [1]) 0 0] (newLRUCache (List Nat) 3)) "b" (some [2, 3]) 0 0).usedBytes ≤ 3 ∨
      (setWithExpiration (runOps [LRUOp.set "a" (some [1]) 0 0] (newLRUCache (List Nat) 3)) "b" (some [2, 3]) 0 0).list = []) :=
  ⟨by decide,
   (lru_capacity_bound_after_final_insert 3 [LRUOp.set "a" (some [1]) 0 0] "b" [2, 3] 0 0 (by decide)).1⟩

/-- C4: through every operation sequence the store keeps its accounting
invariant: each key has exactly one recency-list node (the `items` index
and the list agree, with no duplicate nodes), and `usedBytes` equals the
sum over all entries of `len(key) + value.Len()`. -/
theorem lru_accounting_invariant {α : Type} [GoValue α] (maxB : Int) (ops : List (LRUOp α)) :
    (keysOf (runOps ops (newLRUCache α maxB)).list).Nodup ∧
    (∀ k, k ∈ (runOps ops (newLRUCache α maxB)).items ↔
        k ∈ keysOf (runOps ops (newLRUCache α maxB)).list) ∧
    (runOps ops (newLRUCache α maxB)).usedBytes = listBytes (runOps ops (newLRUCache α maxB)).list := by
  have h := wf_runOps ops (wf_newLRUCache α maxB)
  exact ⟨h.nodupList, h.itemsIff, h.bytesEq⟩

end LRU

namespace LRU

/-- C3 counterexample: a zero-length but non-nil value is NOT a delete —
after `SetWithExpiration("k", empty, 7)` the key is still in the index and
`Get` returns a hit, contradicting the claim for non-nil empty values. -/
theorem lru_zero_length_value_not_deleted :
    ("k" ∈ (setWithExpiration (newLRUCache (List Nat) 100) "k" (some []) 7 5).items) ∧
    (lruGet (setWithExpiration (newLRUCache (List Nat) 100) "k" (some []) 7 5) "k" 6).2 = some [] := by
  decide

/-- C3 amended: only a NIL value deletes the key (afterwards the key is
absent from index and list and `Get` misses); a non-nil value — including a
zero-length one — is stored like any other value: it is inserted or updates
the entry in place, and (with no byte bound and no TTL) `Get`-visible
afterwards. -/
theorem lru_nil_value_deletes_key {α : Type} [GoValue α] (maxB : Int)
    (ops : List (LRUOp α)) (k : String) (expiration now now2 : Int) :
    (lookupKey k (setWithExpiration (runOps ops (newLRUCache α maxB)) k none expiration now).list = none ∧
     k ∉ (setWithExpiration (runOps ops (newLRUCache α maxB)) k none expiration now).items ∧
     (lruGet (setWithExpiration (runOps ops (newLRUCache α maxB)) k none expiration now) k now2).2 = none) ∧
    (∀ (ops2 : List (LRUOp α)) (v : α), expiration ≤ 0 →
      lookupKey k (setWithExpiration (runOps ops2 (newLRUCache α 0)) k (some v) expiration now).list = some v) := by
  constructor
  · have hwf := wf_runOps ops (wf_newLRUCache α maxB)
    rw [setWithExpiration_none]
    unfold lruDelete
    rcases hv : lookupKey k (runOps ops (newLRUCache α maxB)).list with _ | v
    · dsimp only
      refine ⟨hv, ?_, ?_⟩
      · intro hm
        exact AL.lookupKey_eq_none.mp hv ((hwf.itemsIff k).mp hm)
      · unfold lruGet
        rw [hv]
    · dsimp only
      have hrem : removeElement (runOps ops (newLRUCache α maxB)) k =
          { runOps ops (newLRUCache α maxB) with
            list := eraseKey k (runOps ops (newLRUCache α maxB)).list,
            items := (runOps ops (newLRUCache α maxB)).items.erase k,
            expires := eraseKey k (runOps ops (newLRUCache α maxB)).expires,
            usedBytes := (runOps ops (newLRUCache α maxB)).usedBytes - entryBytes (k, v) } := by
        unfold removeElement
        rw [hv]
      rw [hrem]
      have hlook : lookupKey k (eraseKey k (runOps ops (newLRUCache α maxB)).list) = none :=
        lookupKey_eraseKey_self hwf.nodupList
      refine ⟨hlook, ?_, ?_⟩
      · intro hm
        exact ((List.Nodup.mem_erase_iff hwf.nodupItems).mp hm).1 rfl
      · unfold lruGet
        rw [hlook]
  · intro ops2 v ht
    have hwf2 := wf_runOps ops2 (wf_newLRUCache α 0)
    have hmax : (runOps ops2 (newLRUCache α 0)).maxBytes = 0 :=
      runOps_maxBytes ops2 (newLRUCache α 0)
    have hexp : ¬ 0 < expiration := not_lt.mpr ht
    rcases hv : lookupKey k (runOps ops2 (newLRUCache α 0)).list with _ | oldV
    · rw [setWithExpiration_insert hv, if_neg hexp]
      unfold evict
      have hsweep : lookupKey k (sweepExpired now
          { runOps ops2 (newLRUCache α 0) with
            list := (runOps ops2 (newLRUCache α 0)).list ++ [(k, v)],
            items := insertKey k (runOps ops2 (newLRUCache α 0)).items,
            expires := eraseKey k (runOps ops2 (newLRUCache α 0)).expires,
            usedBytes := (runOps ops2 (newLRUCache α 0)).usedBytes + ((k.length : Int) + (GoValue.len v : Int)) }).list =
          lookupKey k ((runOps ops2 (newLRUCache α 0)).list ++ [(k, v)]) := by
        apply lookupKey_foldl_removeElement
        intro hmem
        exact AL.not_mem_keysOf_eraseKey hwf2.nodupExpires (mem_of_mem_expiredKeys hmem)
      rw [evictCapacity_no_limit (by rw [sweepExpired_maxBytes]; show ¬ (0:Int) < (runOps ops2 (newLRUCache α 0)).maxBytes; rw [hmax]; exact lt_irrefl 0)]
      rw [hsweep]
      exact lookupKey_append_right (AL.lookupKey_eq_none.mp hv) v
    · rw [setWithExpiration_update hv]
      exact lookupKey_append_right (AL.not_mem_keysOf_eraseKey hwf2.nodupList) v

end LRU

namespace LRU

/-- C3 amended witness: deleting via nil on a present key, and storing an
empty non-nil value with no bound and no TTL. -/
theorem lru_nil_value_deletes_key_witness :
    lookupKey "k" (setWithExpiration (runOps [LRUOp.set "k" (some [7]) 0 0]
      (newLRUCache (List Nat) 100)) "k" none 0 1).list = none ∧
    lookupKey "k" (setWithExpiration (runOps ([] : List (LRUOp (List Nat)))
      (newLRUCache (List Nat) 0)) "k" (some []) 0 1).list = some [] :=
  ⟨((lru_nil_value_deletes_key 100 [LRUOp.set "k" (some [7]) 0 0] "k" 0 1 2).1).1,
   (lru_nil_value_deletes_key 100 [LRUOp.set "k" (some [7]) 0 0] "k" 0 1 2).2 [] [] (by decide)⟩

/-- C8: `UpdateExpiration` returns false and changes nothing when the key
is absent; on a present key it returns true, touches neither the recency
list nor the index nor the byte count, and sets the expiry to `now + ttl`
for positive ttl, or removes it entirely for ttl ≤ 0. -/
theorem lru_updateExpiration_contract {α : Type} [GoValue α] (maxB : Int)
    (ops : List (LRUOp α)) (k : String) (expiration now : Int) :
    (lookupKey k (runOps ops (newLRUCache α maxB)).list = none →
      updateExpiration (runOps ops (newLRUCache α maxB)) k expiration now
        = (runOps ops (newLRUCache α maxB), false)) ∧
    (lookupKey k (runOps ops (newLRUCache α maxB)).list ≠ none →
      (updateExpiration (runOps ops (newLRUCache α maxB)) k expiration now).2 = true ∧
      (updateExpiration (runOps ops (newLRUCache α maxB)) k expiration now).1.list
        = (runOps ops (newLRUCache α maxB)).list ∧
      (updateExpiration (runOps ops (newLRUCache α maxB)) k expiration now).1.items
        = (runOps ops (newLRUCache α maxB)).items ∧
      (updateExpiration (runOps ops (newLRUCache α maxB)) k expiration now).1.usedBytes
        = (runOps ops (newLRUCache α maxB)).usedBytes ∧
      (0 < expiration →
        lookupKey k (updateExpiration (runOps ops (newLRUCache α maxB)) k expiration now).1.expires
          = some (now + expiration)) ∧
      (expiration ≤ 0 →
        k ∉ keysOf (updateExpiration (runOps ops (newLRUCache α maxB)) k expiration now).1.expires)) := by
  have hwf := wf_runOps ops (wf_newLRUCache α maxB)
  unfold updateExpiration
  rcases hv : lookupKey k (runOps ops (newLRUCache α maxB)).list with _ | v
  · exact ⟨fun _ => rfl, fun hne => absurd rfl hne⟩
  · dsimp only
    constructor
    · intro h0
      cases h0
    · intro _
      split_ifs with he
      · exact ⟨rfl, rfl, rfl, rfl,
          fun _ => AL.lookupKey_setKey_self k (now + expiration) _,
          fun hle => absurd he (not_lt.mpr hle)⟩
      · exact ⟨rfl, rfl, rfl, rfl,
          fun hpos => absurd hpos he,
          fun _ => AL.not_mem_keysOf_eraseKey hwf.nodupExpires⟩

/-- C8 witness: absent key returns false unchanged; present key gets the
new expiry. -/
theorem lru_updateExpiration_contract_witness :
    (updateExpiration (runOps ([] : List (LRUOp (List Nat))) (newLRUCache (List Nat) 100)) "x" 5 10
      = (runOps ([] : List (LRUOp (List Nat))) (newLRUCache (List Nat) 100), false)) ∧
    ((updateExpiration (runOps [LRUOp.set "k" (some [1]) 0 0] (newLRUCache (List Nat) 100)) "k" 5 10).2 = true ∧
     lookupKey "k" (updateExpiration (runOps [LRUOp.set "k" (some [1]) 0 0] (newLRUCache (List Nat) 100)) "k" 5 10).1.expires
       = some (10 + 5)) := by
  refine ⟨(lru_updateExpiration_contract 100 [] "x" 5 10).1 (by decide), ?_, ?_⟩
  · exact ((lru_updateExpiration_contract 100 [LRUOp.set "k" (some [1]) 0 0] "k" 5 10).2 (by decide)).1
  · exact ((lru_updateExpiration_contract 100 [LRUOp.set "k" (some [1]) 0 0] "k" 5 10).2 (by decide)).2.2.2.2.1 (by decide)

/-- C9 counterexample: the source `Close` has no double-close guard — the
first `Close` succeeds, the second re-closes the already-closed `closeCh`
and panics. -/
theorem lru_double_close_panics :
    (lruClose (newLRUCache (List Nat) 100)).isSome = true ∧
    (lruClose (newLRUCache (List Nat) 100)).bind lruClose = none :=
  ⟨rfl, rfl⟩

/-- C9 amended: `Close` is not idempotent in the source: from any state with
the ticker set and the channel still open, the first `Close` succeeds
(closing the channel) and a second `Close` panics on the closed channel.
Safety of a double close is the caller's responsibility. -/
theorem lru_close_unguarded {α : Type} (s : LRUState α)
    (ht : s.tickerSet = true) (hc : s.closeChClosed = false) :
    ∃ s2, lruClose s = some s2 ∧ s2.closeChClosed = true ∧ lruClose s2 = none := by
  refine ⟨{ s with closeChClosed := true }, ?_, rfl, ?_⟩
  · unfold lruClose
    rw [ht, hc]
    rfl
  · unfold lruClose
    rw [show ({ s with closeChClosed := true } : LRUState α).tickerSet = true from ht]
    rfl

/-- C9 amended witness at a freshly constructed store. -/
theorem lru_close_unguarded_witness :
    ∃ s2, lruClose (newLRUCache (List Nat) 100) = some s2 ∧
      s2.closeChClosed = true ∧ lruClose s2 = none :=
  lru_close_unguarded (newLRUCache (List Nat) 100) rfl rfl

end LRU

namespace SF

/-- C1: the check-then-act race in `Do` (`sync.Map.Load` followed by a
separate `Store`) lets two concurrent callers for the same key both miss
the Load, both store their own call records, and both execute `fn`: under
the schedule g0:Load, g1:Load, g0:Store, g1:Store, g0:fn, g1:fn the
function body runs twice, contradicting the documented exactly-once
semantics of `Do`. -/
theorem singleflight_fn_executed_twice :
    (sfRun [0, 1, 0, 1, 0, 1]).execCount = 2 := by
  decide

end SF

namespace CH

/-- C7: on the observed example ring (two nodes holding 50 replicas each,
1000 requests split 900/100), the rebalance threshold is exceeded and the
computed replica count for the hot node (27 = ⌊50 / 1.8⌋) differs from the
current one, so `rebalanceNodes` calls `m.Remove` while already holding
`m.mu` and self-deadlocks: the removal, the re-add and the counter reset
never happen. -/
theorem floor_250_div_9 : (⌊(250 / 9 : ℚ)⌋ : Int) = 27 := by
  rw [Int.floor_eq_iff]
  norm_num

theorem floor_90_rat : (⌊(50 * (2 - 1 / 5) : ℚ)⌋ : Int) = 90 := by
  rw [Int.floor_eq_iff]
  norm_num

theorem newReplicasFor_hot : newReplicasFor exampleRing.config 50 900 500 = 27 := by
  unfold newReplicasFor goTrunc
  dsimp only
  rw [show ((900 : Int) : ℚ) / 500 = 9 / 5 by norm_num]
  rw [if_pos (by norm_num : (1 : ℚ) < 9 / 5)]
  rw [show ((50 : Int) : ℚ) / (9 / 5) = 250 / 9 by norm_num]
  rw [if_pos (by norm_num : (0 : ℚ) ≤ 250 / 9)]
  rw [floor_250_div_9]
  rfl

theorem newReplicasFor_cold : newReplicasFor exampleRing.config 50 100 500 = 90 := by
  unfold newReplicasFor goTrunc
  dsimp only
  rw [show ((100 : Int) : ℚ) / 500 = 1 / 5 by norm_num]
  rw [if_neg (by norm_num : ¬ (1 : ℚ) < 1 / 5)]
  rw [show ((50 : Int) : ℚ) * (2 - 1 / 5) = 50 * (2 - 1 / 5) by norm_num]
  rw [if_pos (by norm_num : (0 : ℚ) ≤ 50 * (2 - 1 / 5))]
  rw [floor_90_rat]
  rfl

theorem ring_rebalance_self_deadlock :
    checkAndRebalance exampleRing = none ∧
    newReplicasFor exampleRing.config 50 900 500 = 27 ∧
    newReplicasFor exampleRing.config 50 100 500 = 90 := by
  refine ⟨?_, newReplicasFor_hot, newReplicasFor_cold⟩
  unfold checkAndRebalance
  rw [if_neg (by decide : ¬ exampleRing.totalRequests < 1000)]
  dsimp only
  have havg : ((exampleRing.totalRequests : ℚ) / (exampleRing.nodeReplicas.length : ℚ)) = 500 := by
    show ((1000 : Int) : ℚ) / ((2 : Nat) : ℚ) = 500
    norm_num
  rw [havg]
  have hmd : exampleRing.nodeCounts.foldl
      (fun acc e => max acc (abs ((e.2 : ℚ) - 500) / 500)) 0 = 4 / 5 := by
    show max (max 0 (abs (((900 : Int) : ℚ) - 500) / 500)) (abs (((100 : Int) : ℚ) - 500) / 500) = 4 / 5
    norm_num
  rw [hmd]
  rw [if_pos (by norm_num [exampleRing, DefaultConfig] : exampleRing.config.loadBalanceThreshold < 4 / 5)]
  unfold rebalanceNodes
  dsimp only
  rw [havg]
  have hany : exampleRing.nodeCounts.any (fun e =>
      decide (newReplicasFor exampleRing.config (lookupD exampleRing.nodeReplicas e.1 0) e.2 500
              ≠ lookupD exampleRing.nodeReplicas e.1 0)) = true := by
    rw [List.any_eq_true]
    refine ⟨("A", 900), by decide, ?_⟩
    rw [decide_eq_true_eq]
    rw [show lookupD exampleRing.nodeReplicas "A" 0 = 50 by decide]
    rw [newReplicasFor_hot]
    decide
  rw [if_pos hany]

/-- C10: `Remove` on a node that is not registered — the empty string, or
any name with no recorded replicas — returns an error and leaves every
field of the ring untouched. -/
theorem ring_remove_absent_is_noop {m : CHMap} {node : String}
    (h : node = "" ∨ lookupD m.nodeReplicas node 0 = 0) :
    (chRemove m node).1 = m ∧ ((chRemove m node).2).isSome = true := by
  rcases h with h | h
  · subst h
    unfold chRemove
    rw [if_pos rfl]
    exact ⟨rfl, rfl⟩
  · unfold chRemove
    by_cases he : node = ""
    · rw [if_pos he]
      exact ⟨rfl, rfl⟩
    · rw [if_neg he]
      dsimp only
      rw [h]
      rw [if_pos rfl]
      exact ⟨rfl, rfl⟩

/-- C10 witness: removing an unknown node from the example ring. -/
theorem ring_remove_absent_is_noop_witness :
    (chRemove exampleRing "C").1 = exampleRing ∧
    ((chRemove exampleRing "C").2).isSome = true :=
  ring_remove_absent_is_noop (Or.inr (by decide))

end CH

namespace Grp

theorem groupSet_tagged_no_sync (g : GroupState) (ctx : Ctx) (k : String)
    (v : List Nat) (hctx : ctx.fromPeer = true) :
    (groupSet g ctx k v).2.2 = false := by
  unfold groupSet
  split_ifs with h1 h2 h3
  · rfl
  · rfl
  · rfl
  · dsimp only
    rw [if_neg (by rw [hctx]; simp)]

theorem groupDelete_tagged_no_sync (g : GroupState) (ctx : Ctx) (k : String)
    (hctx : ctx.fromPeer = true) :
    (groupDelete g ctx k).2.2 = false := by
  unfold groupDelete
  split_ifs with h1 h2
  · rfl
  · rfl
  · dsimp only
    rw [if_neg (by rw [hctx]; simp)]

/-- C5: when the ring yields a non-self peer and the peer's `Get` fails,
`loadData` records exactly one `peerMiss` and falls through to the origin
getter; the caller-visible outcome is the origin's alone — cloned bytes
with a `loaderHit` on success, the wrapped origin error on failure — and
the peer's error string appears in neither. -/
theorem group_peer_failure_falls_through (pick : PickResult) (pe : String)
    (getterRes : Except String (List Nat))
    (hok : pick.ok = true) (hself : pick.isSelf = false) :
    (loadData true pick (.error pe) getterRes).1.peerMisses = 1 ∧
    (∀ b, getterRes = .ok b →
      loadData true pick (.error pe) getterRes = (⟨0, 1, 1⟩, .ok b)) ∧
    (∀ e, getterRes = .error e →
      loadData true pick (.error pe) getterRes
        = (⟨0, 1, 0⟩, .error ("failed to get data: " ++ e))) := by
  refine ⟨?_, ?_, ?_⟩
  · cases getterRes with
    | ok b => simp [loadData, getFromPeer, hok, hself]
    | error e => simp [loadData, getFromPeer, hok, hself]
  · rintro b rfl
    simp [loadData, getFromPeer, cloneBytes, hok, hself]
  · rintro e rfl
    simp [loadData, getFromPeer, hok, hself]

/-- C5 witness: a failing peer with a succeeding origin, and with a
failing origin. -/
theorem group_peer_failure_falls_through_witness :
    (loadData true ⟨true, false⟩ (.error "rpc broke") (.ok [9])).1.peerMisses = 1 ∧
    loadData true ⟨true, false⟩ (.error "rpc broke") (.ok [9]) = (⟨0, 1, 1⟩, .ok [9]) ∧
    loadData true ⟨true, false⟩ (.error "rpc broke") (.error "db down")
      = (⟨0, 1, 0⟩, .error ("failed to get data: " ++ "db down")) :=
  ⟨(group_peer_failure_falls_through ⟨true, false⟩ "rpc broke" (.ok [9]) rfl rfl).1,
   (group_peer_failure_falls_through ⟨true, false⟩ "rpc broke" (.ok [9]) rfl rfl).2.1 [9] rfl,
   (group_peer_failure_falls_through ⟨true, false⟩ "rpc broke" (.error "db down") rfl rfl).2.2 "db down" rfl⟩

/-- C6: a context tagged with the from_peer marker short-circuits the
propagation path: `Set` and `Delete` never spawn `syncToPeers`, a valid
tagged `Set` still performs the local cache write (and reports no error),
and the server-side `Set` handler — which tags the context before calling
the group — never causes propagation either. -/
theorem group_from_peer_no_propagation (g : GroupState) (ctx : Ctx) (k : String)
    (v : List Nat) (hctx : ctx.fromPeer = true) :
    (groupSet g ctx k v).2.2 = false ∧
    (groupDelete g ctx k).2.2 = false ∧
    (g.closed = false → k ≠ "" → v ≠ [] →
      (groupSet g ctx k v).1.cache = setKey k v g.cache ∧
      (groupSet g ctx k v).2.1 = none) ∧
    (∀ (g2 : GroupState) (ctx2 : Ctx) (k2 : String) (v2 : List Nat),
      (serverSet g2 ctx2 k2 v2).2.2 = false) := by
  refine ⟨groupSet_tagged_no_sync g ctx k v hctx,
          groupDelete_tagged_no_sync g ctx k hctx, ?_, ?_⟩
  · intro hclosed hk hv
    unfold groupSet
    rw [if_neg (by simp [hclosed]), if_neg hk, if_neg hv]
    dsimp only
    rw [if_neg (by rw [hctx]; simp), cloneBytes]
    exact ⟨rfl, rfl⟩
  · intro g2 ctx2 k2 v2
    unfold serverSet
    dsimp only
    rcases hc : ctx2.fromPeer with _ | _
    · rw [if_neg (by simp [hc])]
      exact groupSet_tagged_no_sync g2 { fromPeer := true } k2 v2 rfl
    · rw [if_pos (by simp [hc])]
      exact groupSet_tagged_no_sync g2 ctx2 k2 v2 hc

/-- C6 witness: a peer-tagged Set on an open group with peers configured
writes locally and does not propagate. -/
theorem group_from_peer_no_propagation_witness :
    (groupSet ⟨false, true, 0, []⟩ ⟨true⟩ "k" [1]).2.2 = false ∧
    (groupSet ⟨false, true, 0, []⟩ ⟨true⟩ "k" [1]).1.cache = setKey "k" [1] [] :=
  ⟨(group_from_peer_no_propagation ⟨false, true, 0, []⟩ ⟨true⟩ "k" [1] rfl).1,
   ((group_from_peer_no_propagation ⟨false, true, 0, []⟩ ⟨true⟩ "k" [1] rfl).2.2.1
      rfl (by decide) (by decide)).1⟩

end Grp
